import Mathlib

/-!
Verification of the option valuation and payoff engine of PyButterflyVisualizer.

The engine consists of the Black-Scholes call pricing function
`black_scholes_call` (src/PyButterflyVisualizer/main.py, lines 8-17) and the
butterfly-spread evaluator embedded in `update_plot` (lines 246-285).  We embed
the numeric core over the real numbers: numpy scalars become `ℝ`, numpy arrays
become `List ℝ` with elementwise operations as `List.map` / `List.zipWith`,
and `scipy.stats.norm.cdf` becomes the standard normal cumulative distribution
function `norm_cdf` defined by its Gaussian integral.
-/

open MeasureTheory

/-- Standard normal cumulative distribution function, the model of
`scipy.stats.norm.cdf`: `Φ(x) = (2π)^(-1/2) ∫_{-∞}^x exp(-t²/2) dt`. -/
noncomputable def norm_cdf (x : ℝ) : ℝ :=
  (Real.sqrt (2 * Real.pi))⁻¹ * ∫ t in Set.Iic x, Real.exp (-(t ^ 2) / 2)

/-- The closed-form branch of `black_scholes_call` (main.py lines 13-17):
d1 = (log(S/K) + (r + 0.5·σ²)·T)/(σ·√T), d2 = d1 − σ·√T,
price = S·Φ(d1) − K·exp(−r·T)·Φ(d2). -/
noncomputable def bs_formula (S K T r sigma : ℝ) : ℝ :=
  let d1 := (Real.log (S / K) + (r + 0.5 * sigma ^ 2) * T) / (sigma * Real.sqrt T)
  let d2 := d1 - sigma * Real.sqrt T
  S * norm_cdf d1 - K * Real.exp (-r * T) * norm_cdf d2

/-- `black_scholes_call` with scalar spot `S` and scalar time `T`
(main.py lines 8-17): since `np.isscalar(T)` holds, the function returns the
intrinsic value `max (S - K) 0` when `T ≤ 1e-5` and the closed form
otherwise. -/
noncomputable def black_scholes_call (S K T r sigma : ℝ) : ℝ :=
  if T ≤ 1e-5 then max (S - K) 0 else bs_formula S K T r sigma

/-- `black_scholes_call` with an array spot `S` and scalar time `T`
(main.py lines 8-17): `np.isscalar(T)` still holds, so when `T ≤ 1e-5` the
whole array short-circuits to elementwise intrinsic values
(`np.maximum(S - K, 0)` broadcasts over `S`); otherwise the closed form is
evaluated elementwise over `S`. -/
noncomputable def black_scholes_call_vec (S : List ℝ) (K T r sigma : ℝ) : List ℝ :=
  if T ≤ 1e-5 then S.map (fun s => max (s - K) 0)
  else S.map (fun s => bs_formula s K T r sigma)

/-- `black_scholes_call` with scalar spot `S` and an array time `T`
(main.py lines 8-17): `np.isscalar(T)` is false, so the `T <= 1e-5` guard is
never entered and the closed form is evaluated elementwise over `T`. -/
noncomputable def black_scholes_call_tvec (S K : ℝ) (T : List ℝ) (r sigma : ℝ) : List ℝ :=
  T.map (fun t => bs_formula S K t r sigma)

/-- `np.linspace(start, stop, num)` for `num ≥ 2`: `num` evenly spaced points
from `start` to `stop` inclusive, with step `(stop - start)/(num - 1)`. -/
noncomputable def linspace (start stop : ℝ) (num : ℕ) : List ℝ :=
  (List.range num).map (fun i : ℕ => start + (stop - start) * (i : ℝ) / ((num : ℝ) - 1))

/-- The numeric output of one `update_plot` evaluation: the net entry cost of
the butterfly, the swept spot-price domain, the expiration P&L curve and the
current-time P&L curve. -/
structure ValuationResult where
  entry_cost : ℝ
  x : List ℝ
  y_exp : List ℝ
  y_cur : List ℝ

/-- The valuation engine inside `update_plot` (main.py lines 246-285), with
the already-converted numeric parameters as inputs and the UI widget reads and
writes stripped: strikes `K_low = K_mid - width`, `K_high = K_mid + width`;
entry cost `cost_low + cost_high - 2·cost_mid` at the spot `S0`; sweep domain
`np.linspace(S0*0.8, S0*1.2, 300)`; expiration P&L from elementwise intrinsic
values and current P&L from elementwise `black_scholes_call`, both minus the
entry cost. -/
noncomputable def update_plot (S0 sigma T r K_mid width : ℝ) : ValuationResult :=
  let K_low := K_mid - width
  let K_high := K_mid + width
  let cost_low := black_scholes_call S0 K_low T r sigma
  let cost_mid := black_scholes_call S0 K_mid T r sigma
  let cost_high := black_scholes_call S0 K_high T r sigma
  let entry_cost := (cost_low + cost_high) - (2 * cost_mid)
  let x := linspace (S0 * 0.8) (S0 * 1.2) 300
  let val_low_exp := x.map (fun v => max (v - K_low) 0)
  let val_mid_exp := x.map (fun v => max (v - K_mid) 0)
  let val_high_exp := x.map (fun v => max (v - K_high) 0)
  let strategy_val_exp :=
    List.zipWith (fun s m => s - 2 * m) (List.zipWith (· + ·) val_low_exp val_high_exp) val_mid_exp
  let y_exp := strategy_val_exp.map (fun v => v - entry_cost)
  let val_low_cur := black_scholes_call_vec x K_low T r sigma
  let val_mid_cur := black_scholes_call_vec x K_mid T r sigma
  let val_high_cur := black_scholes_call_vec x K_high T r sigma
  let strategy_val_cur :=
    List.zipWith (fun s m => s - 2 * m) (List.zipWith (· + ·) val_low_cur val_high_cur) val_mid_cur
  let y_cur := strategy_val_cur.map (fun v => v - entry_cost)
  { entry_cost := entry_cost, x := x, y_exp := y_exp, y_cur := y_cur }

section NormCdfLemmas

/-- The Gaussian kernel is integrable over the whole line. -/
lemma gauss_int : Integrable (fun t : ℝ => Real.exp (-(t ^ 2) / 2)) := by
  have h := integrable_exp_neg_mul_sq (by norm_num : (0:ℝ) < 1/2)
  refine h.congr ?_
  filter_upwards with t
  ring_nf

/-- Total mass of the Gaussian kernel. -/
lemma gauss_total : (∫ t : ℝ, Real.exp (-(t ^ 2) / 2)) = Real.sqrt (2 * Real.pi) := by
  have h := integral_gaussian (1/2 : ℝ)
  rw [show (∫ t : ℝ, Real.exp (-(t ^ 2) / 2)) = ∫ t : ℝ, Real.exp (-(1/2 : ℝ) * t ^ 2) by
    congr 1; funext t; ring_nf]
  rw [h]
  rw [show Real.pi / (1/2) = 2 * Real.pi by ring]

lemma norm_cdf_nonneg (x : ℝ) : 0 ≤ norm_cdf x := by
  unfold norm_cdf
  apply mul_nonneg
  · positivity
  · exact setIntegral_nonneg measurableSet_Iic fun t _ => (Real.exp_pos _).le

lemma norm_cdf_le_one (x : ℝ) : norm_cdf x ≤ 1 := by
  unfold norm_cdf
  have h1 : (∫ t in Set.Iic x, Real.exp (-(t ^ 2) / 2)) ≤ ∫ t : ℝ, Real.exp (-(t ^ 2) / 2) :=
    setIntegral_le_integral gauss_int (by filter_upwards with t using (Real.exp_pos _).le)
  rw [gauss_total] at h1
  have hs : 0 < Real.sqrt (2 * Real.pi) := Real.sqrt_pos.mpr (by positivity)
  calc (Real.sqrt (2 * Real.pi))⁻¹ * ∫ t in Set.Iic x, Real.exp (-(t ^ 2) / 2)
      ≤ (Real.sqrt (2 * Real.pi))⁻¹ * Real.sqrt (2 * Real.pi) := by
        apply mul_le_mul_of_nonneg_left h1 (by positivity)
    _ = 1 := inv_mul_cancel₀ hs.ne'

/-- Translation identity for the Gaussian tail integral. -/
lemma gauss_shift_eq (d a : ℝ) :
    (∫ t in Set.Iic (d - a), Real.exp (-(t ^ 2) / 2)) =
      ∫ u in Set.Iic d, Real.exp (-((u - a) ^ 2) / 2) := by
  have hmp : MeasurePreserving (fun x : ℝ => x + -a) volume volume :=
    measurePreserving_add_right volume (-a)
  have hemb : MeasurableEmbedding (fun x : ℝ => x + -a) :=
    (MeasurableEquiv.addRight (-a)).measurableEmbedding
  have h := hmp.setIntegral_preimage_emb hemb
    (fun t => Real.exp (-(t ^ 2) / 2)) (Set.Iic (d - a))
  have hpre : Set.preimage (fun x : ℝ => x + -a) (Set.Iic (d - a)) = Set.Iic d := by
    ext u; simp [Set.mem_Iic]
  rw [hpre] at h
  rw [← h]
  simp [sub_eq_add_neg]

/-- The shifted Gaussian kernel is integrable over the whole line. -/
lemma gauss_int_shift (a : ℝ) : Integrable (fun u : ℝ => Real.exp (-((u - a) ^ 2) / 2)) := by
  have hmp : MeasurePreserving (fun x : ℝ => x + -a) volume volume :=
    measurePreserving_add_right volume (-a)
  have hemb : MeasurableEmbedding (fun x : ℝ => x + -a) :=
    (MeasurableEquiv.addRight (-a)).measurableEmbedding
  have h := (hmp.integrable_comp_emb hemb (g := fun t : ℝ => Real.exp (-(t ^ 2) / 2))).mpr gauss_int
  refine h.congr ?_
  filter_upwards with u
  simp [Function.comp, sub_eq_add_neg]

lemma norm_cdf_mono {x y : ℝ} (h : x ≤ y) : norm_cdf x ≤ norm_cdf y := by
  unfold norm_cdf
  apply mul_le_mul_of_nonneg_left _ (by positivity)
  apply setIntegral_mono_set gauss_int.integrableOn
  · filter_upwards with t using (Real.exp_pos _).le
  · exact HasSubset.Subset.eventuallyLE (Set.Iic_subset_Iic.mpr h)

/-- Key inequality behind the lower no-arbitrage bound:
`Φ(d - a) ≤ exp(d·a - a²/2)·Φ(d)` for `a ≥ 0`. -/
lemma norm_cdf_shift_le (d a : ℝ) (ha : 0 ≤ a) :
    norm_cdf (d - a) ≤ Real.exp (d * a - a ^ 2 / 2) * norm_cdf d := by
  unfold norm_cdf
  rw [gauss_shift_eq]
  have key : (∫ u in Set.Iic d, Real.exp (-((u - a) ^ 2) / 2)) ≤
      ∫ u in Set.Iic d, Real.exp (d * a - a ^ 2 / 2) * Real.exp (-(u ^ 2) / 2) := by
    apply setIntegral_mono_on (gauss_int_shift a).integrableOn
      (gauss_int.integrableOn.const_mul _) measurableSet_Iic
    intro u hu
    rw [Set.mem_Iic] at hu
    rw [← Real.exp_add]
    apply Real.exp_le_exp.mpr
    nlinarith
  rw [integral_mul_left] at key
  calc (Real.sqrt (2 * Real.pi))⁻¹ * ∫ u in Set.Iic d, Real.exp (-((u - a) ^ 2) / 2)
      ≤ (Real.sqrt (2 * Real.pi))⁻¹ *
        (Real.exp (d * a - a ^ 2 / 2) * ∫ u in Set.Iic d, Real.exp (-(u ^ 2) / 2)) :=
        mul_le_mul_of_nonneg_left key (by positivity)
    _ = Real.exp (d * a - a ^ 2 / 2) *
        ((Real.sqrt (2 * Real.pi))⁻¹ * ∫ u in Set.Iic d, Real.exp (-(u ^ 2) / 2)) := by ring

end NormCdfLemmas

section EngineLemmas

/-- Unfolding of the closed-form branch. -/
lemma bs_formula_eq (S K T r sigma : ℝ) :
    bs_formula S K T r sigma =
      S * norm_cdf ((Real.log (S / K) + (r + 0.5 * sigma ^ 2) * T) / (sigma * Real.sqrt T))
        - K * Real.exp (-r * T) *
          norm_cdf ((Real.log (S / K) + (r + 0.5 * sigma ^ 2) * T) / (sigma * Real.sqrt T)
            - sigma * Real.sqrt T) := rfl

/-- The closed form never exceeds the spot price. -/
lemma bs_formula_le_spot (S K T r sigma : ℝ) (hS : 0 ≤ S) (hK : 0 ≤ K) :
    bs_formula S K T r sigma ≤ S := by
  rw [bs_formula_eq]
  have h1 : S * norm_cdf ((Real.log (S / K) + (r + 0.5 * sigma ^ 2) * T) / (sigma * Real.sqrt T))
      ≤ S * 1 := mul_le_mul_of_nonneg_left (norm_cdf_le_one _) hS
  have h2 : 0 ≤ K * Real.exp (-r * T) *
      norm_cdf ((Real.log (S / K) + (r + 0.5 * sigma ^ 2) * T) / (sigma * Real.sqrt T)
        - sigma * Real.sqrt T) :=
    mul_nonneg (mul_nonneg hK (Real.exp_pos _).le) (norm_cdf_nonneg _)
  linarith

/-- The closed form is nonnegative for valid inputs with positive time. -/
lemma bs_formula_nonneg (S K T r sigma : ℝ) (hS : 0 < S) (hK : 0 < K)
    (hsig : 0 < sigma) (hT : 0 < T) : 0 ≤ bs_formula S K T r sigma := by
  rw [bs_formula_eq]
  set a := sigma * Real.sqrt T with ha_def
  have hsT : 0 < Real.sqrt T := Real.sqrt_pos.mpr hT
  have ha : 0 < a := mul_pos hsig hsT
  set d1 := (Real.log (S / K) + (r + 0.5 * sigma ^ 2) * T) / a with hd1_def
  have hda : d1 * a = Real.log (S / K) + (r + 0.5 * sigma ^ 2) * T :=
    div_mul_cancel₀ _ ha.ne'
  have ha2 : a ^ 2 = sigma ^ 2 * T := by
    rw [ha_def, mul_pow, Real.sq_sqrt hT.le]
  have hexp : Real.exp (-r * T) * Real.exp (r * T) = 1 := by
    rw [← Real.exp_add]; norm_num
  have hkey : K * Real.exp (-r * T) * Real.exp (d1 * a - a ^ 2 / 2) = S := by
    rw [show d1 * a - a ^ 2 / 2 = d1 * a - sigma ^ 2 * T / 2 by rw [ha2], hda,
      show Real.log (S / K) + (r + 0.5 * sigma ^ 2) * T - sigma ^ 2 * T / 2
        = Real.log (S / K) + r * T by ring,
      Real.exp_add, Real.exp_log (div_pos hS hK)]
    calc K * Real.exp (-r * T) * (S / K * Real.exp (r * T))
        = S / K * K * (Real.exp (-r * T) * Real.exp (r * T)) := by ring
      _ = S := by rw [hexp, div_mul_cancel₀ _ hK.ne']; ring
  have hshift := norm_cdf_shift_le d1 a ha.le
  have hchain : K * Real.exp (-r * T) * norm_cdf (d1 - a) ≤ S * norm_cdf d1 := by
    calc K * Real.exp (-r * T) * norm_cdf (d1 - a)
        ≤ K * Real.exp (-r * T) * (Real.exp (d1 * a - a ^ 2 / 2) * norm_cdf d1) :=
          mul_le_mul_of_nonneg_left hshift (by positivity)
      _ = K * Real.exp (-r * T) * Real.exp (d1 * a - a ^ 2 / 2) * norm_cdf d1 := by ring
      _ = S * norm_cdf d1 := by rw [hkey]
  linarith

/-- The array-spot, scalar-time variant is pointwise the scalar function. -/
lemma black_scholes_call_vec_map (l : List ℝ) (K T r sigma : ℝ) :
    black_scholes_call_vec l K T r sigma
      = l.map (fun s => black_scholes_call s K T r sigma) := by
  unfold black_scholes_call_vec black_scholes_call
  by_cases h : T ≤ 1e-5 <;> simp [h]

lemma zipWith_map_same {α β γ δ : Type} (f : β → γ → δ) (g : α → β) (h : α → γ)
    (l : List α) :
    List.zipWith f (l.map g) (l.map h) = l.map (fun v => f (g v) (h v)) := by
  induction l with
  | nil => simp
  | cons a t ih => simp [ih]

/-- Closed description of one valuation: the sweep domain, plus curves given as
maps over it. -/
lemma update_plot_eq (S0 sigma T r K_mid width : ℝ) :
    update_plot S0 sigma T r K_mid width =
      { entry_cost := (black_scholes_call S0 (K_mid - width) T r sigma
            + black_scholes_call S0 (K_mid + width) T r sigma)
            - 2 * black_scholes_call S0 K_mid T r sigma,
        x := linspace (S0 * 0.8) (S0 * 1.2) 300,
        y_exp := (linspace (S0 * 0.8) (S0 * 1.2) 300).map (fun v =>
          (max (v - (K_mid - width)) 0 + max (v - (K_mid + width)) 0
            - 2 * max (v - K_mid) 0)
          - ((black_scholes_call S0 (K_mid - width) T r sigma
            + black_scholes_call S0 (K_mid + width) T r sigma)
            - 2 * black_scholes_call S0 K_mid T r sigma)),
        y_cur := (linspace (S0 * 0.8) (S0 * 1.2) 300).map (fun v =>
          (black_scholes_call v (K_mid - width) T r sigma
            + black_scholes_call v (K_mid + width) T r sigma
            - 2 * black_scholes_call v K_mid T r sigma)
          - ((black_scholes_call S0 (K_mid - width) T r sigma
            + black_scholes_call S0 (K_mid + width) T r sigma)
            - 2 * black_scholes_call S0 K_mid T r sigma)) } := by
  unfold update_plot
  simp only [black_scholes_call_vec_map, zipWith_map_same, List.map_map]
  rfl

lemma linspace_length (a b : ℝ) (n : ℕ) : (linspace a b n).length = n := by
  rw [linspace, List.length_map, List.length_range]

lemma linspace_getD (a b : ℝ) (n i : ℕ) (h : i < n) :
    (linspace a b n).getD i 0 = a + (b - a) * (i : ℝ) / ((n : ℝ) - 1) := by
  unfold linspace
  rw [List.getD_eq_getElem?_getD, List.getElem?_map, List.getElem?_range h]
  rfl

end EngineLemmas

section PayoffLemmas

lemma max_zero_eq_half (v : ℝ) : max v 0 = (v + |v|) / 2 := by
  rcases le_total v 0 with h | h
  · rw [max_eq_right h, abs_of_nonpos h]; ring
  · rw [max_eq_left h, abs_of_nonneg h]; ring

/-- The raw butterfly expiration payoff never exceeds the wing width. -/
lemma butterfly_raw_le (K_mid w t : ℝ) (hw : 0 ≤ w) :
    max (t - (K_mid - w)) 0 + max (t - (K_mid + w)) 0 - 2 * max (t - K_mid) 0 ≤ w := by
  rw [max_zero_eq_half, max_zero_eq_half, max_zero_eq_half]
  have h1 : |t - (K_mid - w)| ≤ |t - K_mid| + w := by
    calc |t - (K_mid - w)| = |(t - K_mid) + w| := by congr 1; ring
      _ ≤ |t - K_mid| + |w| := abs_add _ _
      _ = |t - K_mid| + w := by rw [abs_of_nonneg hw]
  have h2 : |t - (K_mid + w)| ≤ |t - K_mid| + w := by
    calc |t - (K_mid + w)| = |(t - K_mid) + -w| := by congr 1; ring
      _ ≤ |t - K_mid| + |-w| := abs_add _ _
      _ = |t - K_mid| + w := by rw [abs_neg, abs_of_nonneg hw]
  have h3 : 0 ≤ |t - K_mid| := abs_nonneg _
  linarith

/-- The raw butterfly expiration payoff at the middle strike equals the wing
width. -/
lemma butterfly_raw_at_mid (K_mid w : ℝ) (hw : 0 ≤ w) :
    max (K_mid - (K_mid - w)) 0 + max (K_mid - (K_mid + w)) 0
      - 2 * max (K_mid - K_mid) 0 = w := by
  rw [show K_mid - (K_mid - w) = w by ring, show K_mid - (K_mid + w) = -w by ring,
    sub_self, max_eq_left hw, max_eq_right (neg_nonpos.mpr hw), max_self]
  ring

lemma zip_map_self {α β : Type} (f : α → β) (l : List α) :
    l.zip (l.map f) = l.map (fun v => (v, f v)) := by
  induction l with
  | nil => rfl
  | cons a t ih => simp [ih]

/-- A linspace with at least two points over a nondegenerate interval is
strictly increasing. -/
lemma linspace_pairwise (a b : ℝ) (n : ℕ) (hab : a < b) (hn : 2 ≤ n) :
    (linspace a b n).Pairwise (· < ·) := by
  unfold linspace
  rw [List.pairwise_map]
  refine (List.pairwise_lt_range n).imp ?_
  intro i j hij
  have hn1 : (0:ℝ) < (n:ℝ) - 1 := by
    have h2 : (2:ℝ) ≤ (n:ℝ) := by exact_mod_cast hn
    linarith
  have hij2 : (i:ℝ) < (j:ℝ) := by exact_mod_cast hij
  have hba : 0 < b - a := sub_pos.mpr hab
  have hstep : (b - a) * (i:ℝ) / ((n:ℝ) - 1) < (b - a) * (j:ℝ) / ((n:ℝ) - 1) := by
    apply div_lt_div_of_pos_right _ hn1
    exact mul_lt_mul_of_pos_left hij2 hba
  linarith

end PayoffLemmas

/-- C1: For every S > 0, K > 0, σ > 0, any r, and scalar T above the small
expiration threshold 1e-5, `black_scholes_call` equals the Black-Scholes
closed form S·Φ(d1) − K·e^(−rT)·Φ(d2) with d1 = (ln(S/K) + (r + σ²/2)·T)/(σ·√T)
and d2 = d1 − σ·√T, where Φ is the standard normal CDF; with an array of spot
prices and K, T, r, σ fixed, the same closed form is applied elementwise. -/
theorem black_scholes_call_closed_form (S K T r sigma : ℝ) (Ss : List ℝ)
    (hS : 0 < S) (hK : 0 < K) (hsig : 0 < sigma) (hT : 1e-5 < T) :
    black_scholes_call S K T r sigma
        = S * norm_cdf ((Real.log (S / K) + (r + sigma ^ 2 / 2) * T) / (sigma * Real.sqrt T))
          - K * Real.exp (-r * T) *
            norm_cdf ((Real.log (S / K) + (r + sigma ^ 2 / 2) * T) / (sigma * Real.sqrt T)
              - sigma * Real.sqrt T)
      ∧ black_scholes_call_vec Ss K T r sigma
        = Ss.map (fun s =>
            s * norm_cdf ((Real.log (s / K) + (r + sigma ^ 2 / 2) * T) / (sigma * Real.sqrt T))
              - K * Real.exp (-r * T) *
                norm_cdf ((Real.log (s / K) + (r + sigma ^ 2 / 2) * T) / (sigma * Real.sqrt T)
                  - sigma * Real.sqrt T)) := by
  have hT2 : ¬ T ≤ 1e-5 := not_le.mpr hT
  have h05 : ∀ v : ℝ, r + v ^ 2 / 2 = r + 0.5 * v ^ 2 := fun v => by ring
  constructor
  · rw [h05, black_scholes_call, if_neg hT2, bs_formula_eq]
  · simp only [h05]
    unfold black_scholes_call_vec
    rw [if_neg hT2]
    simp only [bs_formula_eq]

/-- C1 witness at S = 100, K = 95, T = 1, r = 0, σ = 1, empty sweep. -/
theorem black_scholes_call_closed_form_witness :
    (0:ℝ) < 100 ∧ (0:ℝ) < 95 ∧ (0:ℝ) < 1 ∧ (1e-5:ℝ) < 1 ∧
      black_scholes_call 100 95 1 0 1
        = 100 * norm_cdf ((Real.log (100 / 95) + (0 + 1 ^ 2 / 2) * 1) / (1 * Real.sqrt 1))
          - 95 * Real.exp (-0 * 1) *
            norm_cdf ((Real.log (100 / 95) + (0 + 1 ^ 2 / 2) * 1) / (1 * Real.sqrt 1)
              - 1 * Real.sqrt 1) :=
  ⟨by norm_num, by norm_num, by norm_num, by norm_num,
    (black_scholes_call_closed_form 100 95 1 0 1 [] (by norm_num) (by norm_num)
      (by norm_num) (by norm_num)).1⟩

/-- C2: For every S, K, any r, σ, and every scalar T at or below the threshold
1e-5, `black_scholes_call` returns the intrinsic value max (S − K) 0,
independently of r and σ, without evaluating the closed form. -/
theorem black_scholes_call_expiry_intrinsic (S K T r sigma : ℝ) (h : T ≤ 1e-5) :
    black_scholes_call S K T r sigma = max (S - K) 0
      ∧ ∀ r2 sigma2 : ℝ,
          black_scholes_call S K T r2 sigma2 = black_scholes_call S K T r sigma := by
  refine ⟨?_, ?_⟩
  · rw [black_scholes_call, if_pos h]
  · intro r2 sigma2
    rw [black_scholes_call, if_pos h, black_scholes_call, if_pos h]

/-- C2 witness at S = 100, K = 95, T = 0, r = 0.04, σ = 0.25. -/
theorem black_scholes_call_expiry_intrinsic_witness :
    (0:ℝ) ≤ 1e-5 ∧ black_scholes_call 100 95 0 0.04 0.25 = max (100 - 95) 0 :=
  ⟨by norm_num,
    (black_scholes_call_expiry_intrinsic 100 95 0 0.04 0.25 (by norm_num)).1⟩

/-- C9: When T is an array, the near-expiration shortcut is not applied to any
entry, even entries at or below the threshold: the closed form `bs_formula` is
evaluated elementwise over the whole array. -/
theorem black_scholes_call_tvec_elementwise (S K : ℝ) (Ts : List ℝ) (r sigma : ℝ) :
    (black_scholes_call_tvec S K Ts r sigma).length = Ts.length
      ∧ ∀ p ∈ Ts.zip (black_scholes_call_tvec S K Ts r sigma),
          p.2 = bs_formula S K p.1 r sigma := by
  constructor
  · rw [black_scholes_call_tvec, List.length_map]
  · intro p hp
    rw [black_scholes_call_tvec, zip_map_self] at hp
    obtain ⟨t, ht, rfl⟩ := List.mem_map.mp hp
    rfl

/-- C10: For every scalar T < 0 (a value the spec classes as invalid), the
shortcut condition T ≤ 1e-5 also covers T, so `black_scholes_call` silently
returns the intrinsic value max (S − K) 0 instead of evaluating the closed
form. -/
theorem black_scholes_call_negative_T (S K T r sigma : ℝ) (h : T < 0) :
    black_scholes_call S K T r sigma = max (S - K) 0 := by
  rw [black_scholes_call, if_pos (le_trans h.le (by norm_num))]

/-- C10 witness at T = −1. -/
theorem black_scholes_call_negative_T_witness :
    (-1:ℝ) < 0 ∧ black_scholes_call 100 95 (-1) 0.04 0.25 = max (100 - 95) 0 :=
  ⟨by norm_num, black_scholes_call_negative_T 100 95 (-1) 0.04 0.25 (by norm_num)⟩

/-- C3: For every valid input (S > 0, K > 0, σ > 0, T ≥ 0, any real r), the
value returned by `black_scholes_call` satisfies the no-arbitrage bounds
0 ≤ price ≤ S. -/
theorem black_scholes_call_no_arbitrage (S K T r sigma : ℝ)
    (hS : 0 < S) (hK : 0 < K) (hsig : 0 < sigma) (hT : 0 ≤ T) :
    0 ≤ black_scholes_call S K T r sigma ∧ black_scholes_call S K T r sigma ≤ S := by
  rw [black_scholes_call]
  by_cases h : T ≤ 1e-5
  · rw [if_pos h]
    exact ⟨le_max_right _ _, max_le (by linarith) hS.le⟩
  · rw [if_neg h]
    have hT2 : 0 < T := lt_trans (by norm_num) (not_le.mp h)
    exact ⟨bs_formula_nonneg S K T r sigma hS hK hsig hT2,
      bs_formula_le_spot S K T r sigma hS.le hK.le⟩

/-- C3 witness at S = 100, K = 95, T = 1, r = 0.04, σ = 0.25. -/
theorem black_scholes_call_no_arbitrage_witness :
    (0:ℝ) < 100 ∧ (0:ℝ) < 95 ∧ (0:ℝ) < 0.25 ∧ (0:ℝ) ≤ 1 ∧
      (0 ≤ black_scholes_call 100 95 1 0.04 0.25
        ∧ black_scholes_call 100 95 1 0.04 0.25 ≤ 100) :=
  ⟨by norm_num, by norm_num, by norm_num, by norm_num,
    black_scholes_call_no_arbitrage 100 95 1 0.04 0.25
      (by norm_num) (by norm_num) (by norm_num) (by norm_num)⟩

/-- C4: For every S0, σ, T, r, K_mid, width, the evaluator derives
K_low = K_mid − width and K_high = K_mid + width and computes the entry cost
exactly as cost_low + cost_high − 2·cost_mid, where each leg is priced by
`black_scholes_call` at the spot S0; the equality is unconditional, so
negative results are never clamped to zero. -/
theorem update_plot_entry_cost_formula (S0 sigma T r K_mid width : ℝ) :
    (update_plot S0 sigma T r K_mid width).entry_cost
      = black_scholes_call S0 (K_mid - width) T r sigma
        + black_scholes_call S0 (K_mid + width) T r sigma
        - 2 * black_scholes_call S0 K_mid T r sigma := by
  rw [update_plot_eq]

/-- C5: When T = 0 exactly, the current-time P&L curve coincides pointwise
with the expiration P&L curve over the whole swept domain, and both equal
(max(x−K_low,0) + max(x−K_high,0) − 2·max(x−K_mid,0)) − entry_cost. -/
theorem update_plot_T_zero_coincide (S0 sigma r K_mid width : ℝ) :
    (update_plot S0 sigma 0 r K_mid width).y_cur
        = (update_plot S0 sigma 0 r K_mid width).y_exp
      ∧ (update_plot S0 sigma 0 r K_mid width).y_exp
        = (update_plot S0 sigma 0 r K_mid width).x.map (fun v =>
            (max (v - (K_mid - width)) 0 + max (v - (K_mid + width)) 0
              - 2 * max (v - K_mid) 0)
            - (update_plot S0 sigma 0 r K_mid width).entry_cost) := by
  rw [update_plot_eq]
  constructor
  · simp only [black_scholes_call, if_pos (show (0:ℝ) ≤ 1e-5 by norm_num)]
  · rfl

/-- C6 counterexample: at the invalid parameter combination width = −1 (with
S0 = 100, σ = 1, T = 0, r = 0, K_mid = 100) the evaluator does not reject the
input: it runs the computation and produces a full ValuationResult whose entry
cost is the value 1 computed for the crossed butterfly (K_low = 101,
K_high = 99). -/
theorem update_plot_no_reject_counterexample :
    (update_plot 100 1 0 0 100 (-1)).entry_cost = 1
      ∧ (update_plot 100 1 0 0 100 (-1)).x.length = 300 := by
  constructor
  · rw [update_plot_eq]
    norm_num [black_scholes_call]
  · rw [update_plot_eq]
    exact linspace_length _ _ _

/-- C6 (amended): the evaluator performs no parameter validation and raises no
InvalidParameter error: for every parameter combination with width ≤ 0 it
silently computes a full ValuationResult for the degenerate/crossed butterfly,
with the entry cost computed unclamped from the three legs and all three
sequences produced at full length. -/
theorem update_plot_invalid_width_computes (S0 sigma T r K_mid width : ℝ)
    (hw : width ≤ 0) :
    (update_plot S0 sigma T r K_mid width).entry_cost
        = black_scholes_call S0 (K_mid - width) T r sigma
          + black_scholes_call S0 (K_mid + width) T r sigma
          - 2 * black_scholes_call S0 K_mid T r sigma
      ∧ (update_plot S0 sigma T r K_mid width).x.length = 300
      ∧ (update_plot S0 sigma T r K_mid width).y_exp.length = 300
      ∧ (update_plot S0 sigma T r K_mid width).y_cur.length = 300 := by
  rw [update_plot_eq]
  refine ⟨rfl, linspace_length _ _ _, ?_, ?_⟩
  · rw [List.length_map, linspace_length]
  · rw [List.length_map, linspace_length]

/-- C6 witness at width = −1. -/
theorem update_plot_invalid_width_computes_witness :
    (-1:ℝ) ≤ 0 ∧
      ((update_plot 100 1 0 0 100 (-1)).entry_cost
          = black_scholes_call 100 (100 - (-1)) 0 0 1
            + black_scholes_call 100 (100 + (-1)) 0 0 1
            - 2 * black_scholes_call 100 100 0 0 1
        ∧ (update_plot 100 1 0 0 100 (-1)).x.length = 300
        ∧ (update_plot 100 1 0 0 100 (-1)).y_exp.length = 300
        ∧ (update_plot 100 1 0 0 100 (-1)).y_cur.length = 300) :=
  ⟨by norm_num, update_plot_invalid_width_computes 100 1 0 0 100 (-1) (by norm_num)⟩

/-- C7: For every parameter combination with width > 0, every swept point
paired with its expiration P&L satisfies: the P&L is at most
width − entry_cost, and at any sweep point equal to K_mid the P&L is exactly
width − entry_cost; hence whenever K_mid lies in the swept domain the
expiration curve attains its maximum there. -/
theorem update_plot_exp_max_at_mid (S0 sigma T r K_mid width : ℝ)
    (hw : 0 < width) :
    ∀ p ∈ (update_plot S0 sigma T r K_mid width).x.zip
        (update_plot S0 sigma T r K_mid width).y_exp,
      p.2 ≤ width - (update_plot S0 sigma T r K_mid width).entry_cost
        ∧ (p.1 = K_mid →
            p.2 = width - (update_plot S0 sigma T r K_mid width).entry_cost) := by
  rw [update_plot_eq]
  intro p hp
  rw [zip_map_self] at hp
  obtain ⟨t, ht, rfl⟩ := List.mem_map.mp hp
  dsimp only
  constructor
  · have h := butterfly_raw_le K_mid width t hw.le
    linarith
  · rintro rfl
    rw [butterfly_raw_at_mid _ _ hw.le]

/-- C7 witness at width = 5. -/
theorem update_plot_exp_max_at_mid_witness :
    (0:ℝ) < 5 ∧
      ∀ p ∈ (update_plot 100 0.25 0.1 0.04 100 5).x.zip
          (update_plot 100 0.25 0.1 0.04 100 5).y_exp,
        p.2 ≤ 5 - (update_plot 100 0.25 0.1 0.04 100 5).entry_cost
          ∧ (p.1 = 100 →
              p.2 = 5 - (update_plot 100 0.25 0.1 0.04 100 5).entry_cost) :=
  ⟨by norm_num, update_plot_exp_max_at_mid 100 0.25 0.1 0.04 100 5 (by norm_num)⟩

/-- C8: For every S0 > 0, the swept domain is a strictly increasing sequence
of 300 evenly spaced values, with first element 0.8·S0, last element 1.2·S0,
constant step 0.4·S0/299, and both P&L sequences have the same length as the
domain. -/
theorem update_plot_domain_shape (S0 sigma T r K_mid width : ℝ) (hS0 : 0 < S0) :
    (update_plot S0 sigma T r K_mid width).x.length = 300
      ∧ (update_plot S0 sigma T r K_mid width).y_exp.length
          = (update_plot S0 sigma T r K_mid width).x.length
      ∧ (update_plot S0 sigma T r K_mid width).y_cur.length
          = (update_plot S0 sigma T r K_mid width).x.length
      ∧ (update_plot S0 sigma T r K_mid width).x.Pairwise (· < ·)
      ∧ (update_plot S0 sigma T r K_mid width).x.getD 0 0 = 0.8 * S0
      ∧ (update_plot S0 sigma T r K_mid width).x.getD 299 0 = 1.2 * S0
      ∧ ∀ i : ℕ, i + 1 < 300 →
          (update_plot S0 sigma T r K_mid width).x.getD (i + 1) 0
            - (update_plot S0 sigma T r K_mid width).x.getD i 0
            = 0.4 * S0 / 299 := by
  rw [update_plot_eq]
  refine ⟨linspace_length _ _ _, ?_, ?_, ?_, ?_, ?_, ?_⟩
  · rw [List.length_map]
  · rw [List.length_map]
  · exact linspace_pairwise _ _ 300 (by nlinarith) (by norm_num)
  · rw [linspace_getD _ _ 300 0 (by norm_num)]
    push_cast
    ring_nf
  · rw [linspace_getD _ _ 300 299 (by norm_num)]
    push_cast
    ring_nf
  · intro i hi
    rw [linspace_getD _ _ 300 (i + 1) hi, linspace_getD _ _ 300 i (by omega)]
    push_cast
    ring_nf

/-- C8 witness at S0 = 100. -/
theorem update_plot_domain_shape_witness :
    (0:ℝ) < 100 ∧
      ((update_plot 100 0.25 0.1 0.04 100 5).x.length = 300
        ∧ (update_plot 100 0.25 0.1 0.04 100 5).y_exp.length
            = (update_plot 100 0.25 0.1 0.04 100 5).x.length
        ∧ (update_plot 100 0.25 0.1 0.04 100 5).y_cur.length
            = (update_plot 100 0.25 0.1 0.04 100 5).x.length
        ∧ (update_plot 100 0.25 0.1 0.04 100 5).x.Pairwise (· < ·)
        ∧ (update_plot 100 0.25 0.1 0.04 100 5).x.getD 0 0 = 0.8 * 100
        ∧ (update_plot 100 0.25 0.1 0.04 100 5).x.getD 299 0 = 1.2 * 100
        ∧ ∀ i : ℕ, i + 1 < 300 →
            (update_plot 100 0.25 0.1 0.04 100 5).x.getD (i + 1) 0
              - (update_plot 100 0.25 0.1 0.04 100 5).x.getD i 0
              = 0.4 * 100 / 299) :=
  ⟨by norm_num, update_plot_domain_shape 100 0.25 0.1 0.04 100 5 (by norm_num)⟩
